import Mathlib

/-!
Verification development for the sqf-value library (src/sqf-value/value.h).

The library is a single C++ header defining `sqf::value`, a five-variant
dynamic value (Nil / Array / Boolean / Scalar / String) with a type tag
`m_type` and a payload `m_variant`, together with equality (strict and
case-invariant), scalar arithmetic and relational operators, a
recursive-descent parser and a serializer.

Modelling conventions:
* the C++ `float` Scalar payload is modelled by `ℚ` (the claims under
  study concern dispatch and structure, not binary32 rounding; IEEE
  special values and hexadecimal float literals are not modelled and no
  claim exercises them; overflow of `float`'s finite range is modelled
  exactly, by comparison with the binary32 overflow threshold
  `2^128 - 2^103`, while the implementation-defined ERANGE-on-underflow
  behaviour of some C libraries is not modelled);
* `std::stof` (which throws `std::invalid_argument` when no conversion
  can be performed and `std::out_of_range` when the value overflows the
  finite range of `float`) is modelled by `stofModel`, returning `none`
  for the thrown exceptions; `parse_string`'s `reserve` call, which
  throws `std::length_error` when the opening quote is the input's last
  character, is modelled by `parse_string` returning `none`; the
  exceptions propagate out of `parse`, so the top-level `parse` returns
  an `Option`;
* iterator cursors are modelled by "remaining input" lists of characters;
  the cursor over-advance of `parse_boolean` past the end of the input
  (undefined behaviour in C++) is modelled by the clamping `List.drop`;
* the recursive-descent parser is modelled by a fuel-indexed function
  `parseAux`; a separate sufficiency lemma shows that the fuel used by
  the wrapper `parse` never runs out, so the fuel is invisible at the
  `parse` level.
-/

set_option maxRecDepth 8192

namespace sqf

attribute [local semireducible] Rat.mul Rat.add Rat.sub Rat.inv

/-- The `value_type` enum of the source (value.h line 39). -/
inductive valueType where
  | Nil
  | Array
  | Boolean
  | Scalar
  | String
deriving DecidableEq

/-! ### Raw model: tag and payload stored separately

The C++ class stores the tag `m_type` and the payload `m_variant` as two
separate fields (value.h lines 47-48); the mutable accessors (lines 50-53)
assign to `m_variant` without touching `m_type`, so the two can get out of
sync.  `rvalue` models the pair of fields exactly, `rvariant` models
`std::variant<std::monostate, std::vector<value>, std::string, bool, float>`. -/

mutual
inductive rvariant where
  | monostate
  | varr (elems : List rvalue)
  | vstr (s : String)
  | vbool (b : Bool)
  | vfloat (q : ℚ)
inductive rvalue where
  | mk (m_type : valueType) (m_variant : rvariant)
end

/-- Projection for the `m_type` field. -/
def rvalue.m_type : rvalue → valueType
  | .mk t _ => t

/-- Projection for the `m_variant` field. -/
def rvalue.m_variant : rvalue → rvariant
  | .mk _ v => v

/-- The constructor `value(float scalar)` (value.h line 66): tag `Scalar`,
payload the float. -/
def rscalar (q : ℚ) : rvalue := .mk .Scalar (.vfloat q)

/-- `is_scalar` (value.h line 175): compares only the tag. -/
def rvalue.is_scalar (v : rvalue) : Bool := decide (v.m_type = valueType.Scalar)

/-- The mutable accessor `as_bool` (value.h line 51):
`if (m_type != value_type::Boolean) { m_variant = bool{}; } return std::get<bool>(m_variant);`
Note that the assignment changes only `m_variant`, never `m_type`.
`std::get<bool>` throws `bad_variant_access` when the variant does not hold
a `bool`; that throw is modelled by `none` (it is only reachable on values
whose tag and payload already disagree). -/
def rvalue.as_bool (v : rvalue) : Option (Bool × rvalue) :=
  match v with
  | .mk t var =>
    if t ≠ valueType.Boolean then
      some (false, .mk t (.vbool false))
    else
      match var with
      | .vbool b => some (b, .mk t var)
      | _ => none

/-- Which tag the stored payload actually corresponds to. -/
def rvariantKind : rvariant → valueType
  | .monostate => .Nil
  | .varr _ => .Array
  | .vstr _ => .String
  | .vbool _ => .Boolean
  | .vfloat _ => .Scalar

/-- The tag/payload synchronisation invariant claimed by the spec. -/
def rvalue.tagMatches (v : rvalue) : Bool := decide (rvariantKind v.m_variant = v.m_type)

/-- The state of `value v(5.0f)` after the public non-const
`explicit operator bool()` (value.h line 164) has invoked the mutable
`as_bool` accessor on it. -/
def afterAsBoolOnScalar5 : rvalue :=
  match (rscalar 5).as_bool with
  | some (_, v) => v
  | none => .mk .Nil .monostate

/-- C1: the claim says `as<bool>` on `Scalar(5.0)` returns `false` and turns
the whole value into `Boolean(false)`, so that `is_scalar()` becomes false.
The code does return `false`, but only overwrites `m_variant`; `m_type`
stays `Scalar`, so `is_scalar()` still answers `true` afterwards (and the
tag now lies about the payload).  This theorem evaluates the code at the
claim's own input and exhibits the divergence. -/
theorem C1_as_bool_keeps_scalar_tag :
    (rscalar 5).as_bool = some (false, rvalue.mk .Scalar (.vbool false))
    ∧ afterAsBoolOnScalar5.is_scalar = true := by
  exact ⟨rfl, rfl⟩

/-- C2: the claim says the stored tag always matches the stored payload.
Every constructor establishes the match, but the public non-const
conversion operators route through the mutable accessors, which break it:
after `as_bool` on `Scalar(5.0)` the tag still says `Scalar` while the
payload is a `bool`. -/
theorem C2_tag_payload_desync :
    (∀ q : ℚ, (rscalar q).tagMatches = true)
    ∧ afterAsBoolOnScalar5.tagMatches = false
    ∧ afterAsBoolOnScalar5.m_type = valueType.Scalar
    ∧ rvariantKind afterAsBoolOnScalar5.m_variant = valueType.Boolean := by
  exact ⟨fun q => rfl, rfl, rfl, rfl⟩

/-! ### Synchronised value model

Every constructor of the class (value.h lines 61-74) establishes the
tag/payload match, and all operations studied from here on preserve it, so
the parser/serializer/comparison claims are stated over `value`, the
five-variant sum with the payload fused to the tag.  `valueList` is the
`std::vector<value>` payload of the Array variant. -/

mutual
inductive value where
  | nil
  | array (elems : valueList)
  | boolean (b : Bool)
  | scalar (q : ℚ)
  | str (s : String)
inductive valueList where
  | vnil
  | vcons (hd : value) (tl : valueList)
end

/-- `emplace_back`: append one element at the end of a vector. -/
def valueList.push : valueList → value → valueList
  | .vnil, v => .vcons v .vnil
  | .vcons x tl, v => .vcons x (tl.push v)

/-- Vector concatenation (used only to state lemmas about the parser's
accumulator). -/
def valueList.append : valueList → valueList → valueList
  | .vnil, l => l
  | .vcons x tl, l => .vcons x (tl.append l)

mutual
/-- `equals` (value.h lines 82-97): different tags are unequal, `Nil`
equals `Nil`, the other payloads compare directly; Array compares via
`std::equal` over both ranges, which is equal-length element-wise
comparison with `operator==` (value.h line 137), i.e. `equals` again. -/
def value.equals : value → value → Bool
  | .nil, .nil => true
  | .boolean a, .boolean b => a == b
  | .scalar a, .scalar b => decide (a = b)
  | .str a, .str b => a == b
  | .array a, .array b => valueList.equalsL a b
  | _, _ => false
def valueList.equalsL : valueList → valueList → Bool
  | .vnil, .vnil => true
  | .vcons x xs, .vcons y ys => value.equals x y && valueList.equalsL xs ys
  | _, _ => false
end

/-- `std::tolower` in the C locale on ASCII input: fold `A`-`Z` down. -/
def lowerModel (c : Char) : Char :=
  if c.isUpper then Char.ofNat (c.toNat + 32) else c

/-- `std::equal` over two char ranges with the per-character
`tolower(l) == tolower(r)` predicate (value.h line 114). -/
def strEqInvChars : List Char → List Char → Bool
  | [], [] => true
  | x :: xs, y :: ys => (lowerModel x == lowerModel y) && strEqInvChars xs ys
  | _, _ => false

/-- `equals_invariant` (value.h lines 101-125): same tag discipline as
`equals`; String compares case-insensitively character by character, but
Array still compares with `std::equal` over `operator==`, i.e. the strict
`equals`. -/
def value.equals_invariant : value → value → Bool
  | .nil, .nil => true
  | .boolean a, .boolean b => a == b
  | .scalar a, .scalar b => decide (a = b)
  | .str a, .str b => strEqInvChars a.data b.data
  | .array a, .array b => valueList.equalsL a b
  | _, _ => false

/-- `is_scalar` (value.h line 175). -/
def value.is_scalar : value → Bool
  | .scalar _ => true
  | _ => false

/-- `is_array` (value.h line 173). -/
def value.is_array : value → Bool
  | .array _ => true
  | _ => false

/-- `is_nil` (value.h line 181). -/
def value.is_nil : value → Bool
  | .nil => true
  | _ => false

/-- The const accessor `as_float` (value.h line 55): the payload when the
variant is Scalar, otherwise 0. -/
def value.as_float : value → ℚ
  | .scalar q => q
  | _ => 0

/-- `operator+` (value.h line 158): `Boolean(false)` unless both operands
are Scalar, otherwise the Scalar sum (the returned `float` runs through the
`value(float)` constructor, the returned `false` through `value(bool)`). -/
def value.add (a b : value) : value :=
  if a.is_scalar = false ∨ b.is_scalar = false then .boolean false
  else .scalar (a.as_float + b.as_float)

/-- `operator-` (value.h line 159). -/
def value.sub (a b : value) : value :=
  if a.is_scalar = false ∨ b.is_scalar = false then .boolean false
  else .scalar (a.as_float - b.as_float)

/-- `operator*` (value.h line 160). -/
def value.mul (a b : value) : value :=
  if a.is_scalar = false ∨ b.is_scalar = false then .boolean false
  else .scalar (a.as_float * b.as_float)

/-- `operator/` (value.h line 161).  Division is `ℚ` field division here;
the IEEE behaviour at zero divisors (infinities, NaN) is not modelled and
no claim exercises it. -/
def value.div (a b : value) : value :=
  if a.is_scalar = false ∨ b.is_scalar = false then .boolean false
  else .scalar (a.as_float / b.as_float)

/-- `operator<` against a numeric literal (value.h lines 145 and 150; the
`double` overload first casts to `float`, which the `ℚ` model renders as
the identity): `false` for a non-Scalar receiver, otherwise
`other < as_float()` with the operands in that order. -/
def value.lt (v : value) (other : ℚ) : Bool :=
  if v.is_scalar = false then false else decide (other < v.as_float)

/-- `operator<=` (value.h lines 144 and 149). -/
def value.le (v : value) (other : ℚ) : Bool :=
  if v.is_scalar = false then false else decide (other ≤ v.as_float)

/-- `operator>` (value.h lines 147 and 152). -/
def value.gt (v : value) (other : ℚ) : Bool :=
  if v.is_scalar = false then false else decide (other > v.as_float)

/-- `operator>=` (value.h lines 146 and 151). -/
def value.ge (v : value) (other : ℚ) : Bool :=
  if v.is_scalar = false then false else decide (other ≥ v.as_float)

/-- C5: `equals_invariant` folds case on String payloads but compares Array
payloads with the strict `equals`, so case-insensitivity does not reach
strings nested inside arrays: `String("ABC")` invariant-equals
`String("abc")`, while `Array([String("ABC")])` does not invariant-equal
`Array([String("abc")])`, and on Array operands `equals_invariant` agrees
with `equals` outright. -/
theorem C5_equals_invariant_asymmetry :
    value.equals_invariant (.str "ABC") (.str "abc") = true
    ∧ value.equals_invariant (.array (.vcons (.str "ABC") .vnil))
        (.array (.vcons (.str "abc") .vnil)) = false
    ∧ (∀ xs ys : valueList,
        value.equals_invariant (.array xs) (.array ys)
          = value.equals (.array xs) (.array ys)) := by
  refine ⟨by decide, by decide, fun xs ys => ?_⟩
  simp [value.equals, value.equals_invariant]

/-- C6: each arithmetic operator yields `Scalar` of the payload arithmetic
when both operands are Scalar, and the soft-fail `Boolean(false)` in every
other case — no exception, no concatenation. -/
theorem C6_arithmetic_soft_fail (a b : value) :
    ((a.is_scalar = true ∧ b.is_scalar = true) →
      (value.add a b = .scalar (a.as_float + b.as_float)
       ∧ value.sub a b = .scalar (a.as_float - b.as_float)
       ∧ value.mul a b = .scalar (a.as_float * b.as_float)
       ∧ value.div a b = .scalar (a.as_float / b.as_float)))
    ∧ ((a.is_scalar = false ∨ b.is_scalar = false) →
      (value.add a b = .boolean false ∧ value.sub a b = .boolean false
       ∧ value.mul a b = .boolean false ∧ value.div a b = .boolean false)) := by
  constructor
  · rintro ⟨ha, hb⟩
    refine ⟨?_, ?_, ?_, ?_⟩ <;>
      simp [value.add, value.sub, value.mul, value.div, ha, hb]
  · intro h
    refine ⟨?_, ?_, ?_, ?_⟩ <;>
      simp [value.add, value.sub, value.mul, value.div, h]

/-- Witness for C6: `Scalar(2) + Scalar(3)` is `Scalar(5)`, while
`String("a") + Scalar(1)` is `Boolean(false)`. -/
theorem C6_arithmetic_soft_fail_witness :
    value.add (.scalar 2) (.scalar 3) = .scalar (2 + 3)
    ∧ value.add (.str "a") (.scalar 1) = .boolean false := by
  constructor
  · exact ((C6_arithmetic_soft_fail (.scalar 2) (.scalar 3)).1 ⟨rfl, rfl⟩).1
  · exact ((C6_arithmetic_soft_fail (.str "a") (.scalar 1)).2 (Or.inl rfl)).1

/-- C10: the relational operators against a numeric literal compare with
the operands reversed relative to the written order (`v < x` computes
`x < payload`), and return `false` on a non-Scalar receiver. -/
theorem C10_relational_operands_reversed (v : value) (x : ℚ) :
    (∀ p : ℚ, v = .scalar p →
      (value.lt v x = decide (x < p) ∧ value.le v x = decide (x ≤ p)
       ∧ value.gt v x = decide (x > p) ∧ value.ge v x = decide (x ≥ p)))
    ∧ (v.is_scalar = false →
      (value.lt v x = false ∧ value.le v x = false
       ∧ value.gt v x = false ∧ value.ge v x = false)) := by
  constructor
  · rintro p rfl
    refine ⟨?_, ?_, ?_, ?_⟩ <;> rfl
  · intro h
    refine ⟨?_, ?_, ?_, ?_⟩ <;> simp [value.lt, value.le, value.gt, value.ge, h]

/-- Witness for C10: `Scalar(5) < 3` is `true` (because the code computes
`3 < 5`), `Scalar(5) > 3` is `false`, and a String receiver compares as
`false`. -/
theorem C10_relational_operands_reversed_witness :
    value.lt (.scalar 5) 3 = true
    ∧ value.gt (.scalar 5) 3 = false
    ∧ value.lt (.str "a") 3 = false := by
  refine ⟨?_, ?_, ?_⟩
  · exact (((C10_relational_operands_reversed (.scalar 5) 3).1 5 rfl).1).trans (by decide)
  · exact (((C10_relational_operands_reversed (.scalar 5) 3).1 5 rfl).2.2.1).trans (by decide)
  · exact ((C10_relational_operands_reversed (.str "a") 3).2 rfl).1

/-! ### Serializer (value.h lines 197-255) -/

/-- The character for a single decimal digit value. -/
def digitChar (n : Nat) : Char := Char.ofNat (48 + n)

/-- Decimal digits of a natural number, most significant first; the first
argument is structural fuel (`n + 1` always suffices). -/
def natDigitsGo : Nat → Nat → List Char
  | 0, _ => []
  | f + 1, n => if n < 10 then [digitChar n] else natDigitsGo f (n / 10) ++ [digitChar (n % 10)]

/-- Decimal digits of a natural number. -/
def natDigits (n : Nat) : List Char := natDigitsGo (n + 1) n

/-- Drop trailing `'0'` characters. -/
def stripTrailingZeros (l : List Char) : List Char :=
  (l.reverse.dropWhile (fun c => c == '0')).reverse

/-- Left-pad a digit string to six digits with `'0'`. -/
def padSix (l : List Char) : List Char := List.replicate (6 - l.length) '0' ++ l

/-- Floor of a nonnegative rational as a natural number. -/
def ratFloorNonneg (a : ℚ) : Nat := a.num.toNat / a.den

/-- Modelled host float-to-text primitive: the serializer's Scalar case is
`std::stringstream << float` (value.h line 225), an opaque host formatting
primitive (`%g`-style, six significant digits).  The model renders the
sign, the integer part, and up to six truncated fractional digits with
trailing zeros stripped; it agrees with the host on the simple values used
below, and every theorem whose truth depends on the rendering of a Scalar
carries an explicit hypothesis that the rendering parses back to the same
payload, so nothing is proved from unmodelled corners of the host format. -/
def floatChars (q : ℚ) : List Char :=
  let a := |q|
  let ip := ratFloorNonneg a
  let fracN := ratFloorNonneg ((a - (ip : ℚ)) * 1000000)
  let fds := stripTrailingZeros (padSix (natDigits fracN))
  (if q < 0 then ['-'] else []) ++ natDigits ip ++ (if fds = [] then [] else '.' :: fds)

/-- The quote-doubling escape of the String case of `to_string`
(value.h lines 230-246): every `'"'` in the payload is emitted twice. -/
def escapeChars : List Char → List Char
  | [] => []
  | c :: r => if c = '"' then c :: c :: escapeChars r else c :: escapeChars r

mutual
/-- `to_string` (value.h lines 197-255), producing the character list of
the output: Nil renders as `nil`, Boolean as `true`/`false`, Scalar through
the host float formatter, String either raw or quote-wrapped with doubled
quotes, Array as `[`, the comma-joined elements, `]`. -/
def value.toChars (escape : Bool) : value → List Char
  | .nil => 'n' :: 'i' :: 'l' :: []
  | .boolean b => if b then 't' :: 'r' :: 'u' :: 'e' :: [] else 'f' :: 'a' :: 'l' :: 's' :: 'e' :: []
  | .scalar q => floatChars q
  | .str s => if escape then '"' :: (escapeChars s.data ++ ['"']) else s.data
  | .array elems => '[' :: (valueList.toCharsL escape false elems ++ [']'])
/-- The flag-controlled comma-joining loop of the Array case of
`to_string` (value.h lines 205-217): the flag says whether a previous
element was emitted, in which case a `,` precedes the next one. -/
def valueList.toCharsL (escape : Bool) (flag : Bool) : valueList → List Char
  | .vnil => []
  | .vcons x tl =>
      (if flag then [','] else []) ++ value.toChars escape x ++ valueList.toCharsL escape true tl
end

/-- `to_string` with the escape flag (default `true` in the source). -/
def value.to_string (escape : Bool) (v : value) : String := String.mk (value.toChars escape v)

/-! ### Parser (value.h lines 184-194 and 256-386) -/

/-- Digit characters to a natural number, most significant first. -/
def natValN (l : List Char) : Nat := l.foldl (fun acc c => acc * 10 + (c.toNat - 48)) 0

/-- Digit characters to a rational, most significant first. -/
def natValQ (l : List Char) : ℚ := (natValN l : ℚ)

/-- Sign handling of `strtof`: the consumed sign, the rest, and how many
characters the sign took. -/
def stofSign : List Char → ℚ × List Char × Nat
  | '+' :: r => (1, r, 1)
  | '-' :: r => (-1, r, 1)
  | l => (1, l, 0)

/-- Exponent digits of `strtof` after the `e`/`E` and optional sign have
been seen: if no digit follows, the whole exponent part is not consumed. -/
def stofExpDigits (sgn : ℤ) (pre : Nat) (l : List Char) : ℤ × Nat :=
  let ds := l.takeWhile Char.isDigit
  if ds = [] then (0, 0) else (sgn * (natValN ds : ℤ), pre + ds.length)

/-- Exponent part of `strtof` after the `e`/`E` has been seen. -/
def stofExpAfterE (l : List Char) : ℤ × Nat :=
  match l with
  | '+' :: r => stofExpDigits 1 2 r
  | '-' :: r => stofExpDigits (-1) 2 r
  | r => stofExpDigits 1 1 r

/-- Exponent part of `strtof`: consumed only when an `e`/`E` with at least
one digit follows. -/
def stofExp (l : List Char) : ℤ × Nat :=
  match l with
  | c :: r => if c = 'e' ∨ c = 'E' then stofExpAfterE r else (0, 0)
  | [] => (0, 0)

/-- Fractional part of the `strtof` grammar, applied to the input left
after the integral digits: a decimal point consumes itself and the digit
span after it (possibly empty); anything else consumes nothing.  Returns
the fractional digits, the remaining input, and the characters consumed. -/
def stofFrac (r1 : List Char) : List Char × List Char × Nat :=
  match r1 with
  | '.' :: rr => (rr.takeWhile Char.isDigit, rr.dropWhile Char.isDigit,
      1 + (rr.takeWhile Char.isDigit).length)
  | _ => ([], r1, 0)

/-- The converted value falls outside the finite range of `float`:
round-to-nearest would give an infinity, i.e. the magnitude reaches
`2^128 - 2^103` (the overflow threshold of binary32; the numeral below is
that number, see `floatOverflows_iff`).  `std::stof` then throws
`std::out_of_range`. -/
def floatOverflows (q : ℚ) : Bool :=
  decide ((340282356779733661637539395458142568448 : ℚ) ≤ |q|)

/-- Powers of ten, computed in `ℕ` and cast into `ℚ`. -/
def pow10 (n : Nat) : ℚ := ((10 ^ n : ℕ) : ℚ)

/-- The numeral in `floatOverflows` is the binary32 overflow threshold. -/
theorem floatOverflows_iff (q : ℚ) :
    floatOverflows q = true ↔ (2 : ℚ) ^ 128 - 2 ^ 103 ≤ |q| := by
  rw [floatOverflows, decide_eq_true_eq]
  norm_num

theorem pow10_eq (n : Nat) : pow10 n = (10 : ℚ) ^ n := by
  simp [pow10]

/-- The part of the `strtof` grammar after the optional sign: integral
digit span, optional fractional part, optional exponent.  `sg` is the sign
already read and `n0` how many characters it took.  A value whose magnitude
overflows `float` yields `none` (`std::stof` rethrows `strtof`'s `ERANGE`
as `std::out_of_range`). -/
def stofAfterSign (sg : ℚ) (n0 : Nat) (l1 : List Char) : Option (ℚ × Nat) :=
  let d1 := l1.takeWhile Char.isDigit
  let fr := stofFrac (l1.dropWhile Char.isDigit)
  if d1 = [] ∧ fr.1 = [] then none
  else
    let e := stofExp fr.2.1
    let mant : ℚ := natValQ d1 + natValQ fr.1 / pow10 fr.1.length
    let scaled : ℚ := if 0 ≤ e.1 then mant * pow10 e.1.toNat else mant / pow10 (-e.1).toNat
    if floatOverflows (sg * scaled) then none
    else some (sg * scaled, n0 + d1.length + fr.2.2 + e.2)

/-- Modelled `std::stof` (value.h line 383): longest valid prefix of the
decimal float grammar `sign? digits [. digits] [e sign? digits]`, returning
the value and the number of characters consumed; `none` models the throws:
`std::invalid_argument` when no conversion can be performed, and
`std::out_of_range` when the value overflows `float`'s finite range (e.g.
`9e999`).  Hexadecimal floats and `inf`/`nan` forms are not modelled (their
first characters never reach this branch, except for a sign followed by
`inf`); whether `strtof` reports `ERANGE` also on underflow to a subnormal
is optional in the C standard and implementations differ, so it is not
modelled either — no claim exercises it.  In-range values are kept as the
exact rational, not the binary32 rounding. -/
def stofModel (l : List Char) : Option (ℚ × Nat) :=
  let s := stofSign l
  stofAfterSign s.1 s.2.2 s.2.1

/-- The second pass of `parse_string` (value.h lines 334-354), on the
characters after the opening delimiter `c`: chars are copied until a lone
`c`; a doubled `c` copies one `c` and continues; the closing delimiter is
consumed; hitting the end of input returns the partial content. -/
def parseStringAux (c : Char) : List Char → List Char × List Char
  | [] => ([], [])
  | [x] => if x = c then ([], []) else ([x], [])
  | x :: y :: rest2 =>
    if x = c then
      if y = c then
        let p := parseStringAux c rest2
        (c :: p.1, p.2)
      else ([], y :: rest2)
    else
      let p := parseStringAux c (y :: rest2)
      (x :: p.1, p.2)

/-- `parse_string` (value.h lines 306-356), on the characters after the
opening delimiter `c`.  Its first pass (lines 312-329) computes the
`reserve` size hint `len - quotes` with `len = copy - begin - 2` (lines
331-333).  When the opening delimiter is the input's last character the
scan loop never runs, `len` is the signed value -1, `len - quotes` wraps to
`SIZE_MAX` and `reserve` throws `std::length_error` — modelled by `none`.
In every other case `len - quotes` is nonnegative (each doubled-delimiter
pair advances the scan by two characters, every other scanned character by
one), `reserve` is just a capacity hint with no observable effect, and the
second pass `parseStringAux` runs. -/
def parse_string (c : Char) (l : List Char) : Option (List Char × List Char) :=
  match l with
  | [] => none
  | _ => some (parseStringAux c l)

/-- `parse_boolean` (value.h lines 357-379): a `t`/`T` start consumes four
characters in total and yields `true`; anything else consumes five and
yields `false`; the remaining letters are never checked.  The dispatch only
sends lowercase `t`/`f` here.  Advancing past the end of the input is
undefined behaviour in C++ and clamps here. -/
def parse_boolean (c : Char) (rest : List Char) : value × List Char :=
  if c = 't' ∨ c = 'T' then (.boolean true, rest.drop 3)
  else (.boolean false, rest.drop 4)

/-- The scalar dispatch set of `parse_` (value.h lines 270-282). -/
def scalarDispatch (c : Char) : Bool :=
  c.isDigit || c == '-' || c == '+' || c == '.'

/-- Result of a parser step: a value with the remaining input, a
propagated exception (`std::stof`'s `invalid_argument` / `out_of_range`,
or `parse_string`'s `length_error`), or fuel exhaustion (an artifact of the
fuel-indexed model; `parseAux_no_fuelOut` below shows the wrapper's fuel
never runs out). -/
inductive PRes where
  | ok (v : value) (rest : List Char)
  | err
  | fuelOut

/-- Which of the two mutually recursive source functions is running:
`parse_` (value.h line 257) or the element loop of `parse_array`
(value.h line 290) with its accumulated `values` vector. -/
inductive PMode where
  | top
  | arr (acc : valueList)

/-- The recursive descent core, `parse_` and `parse_array` fused into one
fuel-indexed function.  `top` mode is `parse_`: dispatch on the head
character (`[` array, quote string, `t`/`f` boolean, digit/sign/dot scalar,
anything else skipped one character at a time, end of input gives the
default value).  `arr acc` mode is the loop of `parse_array`: `]` closes
the array; otherwise one element is parsed and appended and, if input
remains, the loop continues — if the input is exhausted instead, the
default (Nil) value is returned and the accumulated elements are discarded.
An empty input in `arr` mode corresponds to the source dereferencing the
end iterator (undefined behaviour); it is modelled as the default value,
consistently with the adjacent exhaustion branch. -/
def parseAux : Nat → PMode → List Char → PRes
  | 0, _, _ => .fuelOut
  | _ + 1, .top, [] => .ok .nil []
  | f + 1, .top, c :: rest =>
    if c = '[' then parseAux f (.arr .vnil) rest
    else if c = '"' ∨ c = '\'' then
      match parse_string c rest with
      | none => .err
      | some p => .ok (.str (String.mk p.1)) p.2
    else if c = 't' ∨ c = 'f' then
      let p := parse_boolean c rest
      .ok p.1 p.2
    else if scalarDispatch c then
      match stofModel (c :: rest) with
      | none => .err
      | some (q, k) => .ok (.scalar q) ((c :: rest).drop k)
    else parseAux f .top rest
  | _ + 1, .arr _, [] => .ok .nil []
  | f + 1, .arr acc, c :: rest =>
    if c = ']' then .ok (.array acc) rest
    else
      match parseAux f .top (c :: rest) with
      | .ok v r => if r = [] then .ok .nil [] else parseAux f (.arr (acc.push v)) r
      | e => e

/-- `parse` (value.h lines 184-194): empty input gives the default value;
otherwise run `parse_` and discard the final cursor.  `none` models an
exception escaping (`std::stof`'s `invalid_argument` or `out_of_range`, or
`parse_string`'s `length_error`); the fuel given to `parseAux` is enough by
`parseAux_no_fuelOut` below. -/
def parse (s : String) : Option value :=
  if s.data.isEmpty then some .nil
  else
    match parseAux (2 * s.data.length + 2) .top s.data with
    | .ok v _ => some v
    | _ => none

/-- The round-trip check of the spec: serialize with `escape = true`,
parse back, compare with `equals`. -/
def roundTripOK (v : value) : Bool :=
  match parse (value.to_string true v) with
  | some w => value.equals w v
  | none => false

/-- Parse two texts and compare the results with `equals` (false when
either parse signals an error). -/
def parseEqCheck (s t : String) : Bool :=
  match parse s, parse t with
  | some a, some b => value.equals a b
  | _, _ => false

/-- C7: the boolean branch of the parser consumes exactly four characters
on a leading `t` yielding `Boolean(true)` and exactly five on a leading `f`
yielding `Boolean(false)`, never checking the letters after the first; in
particular `parse("txyz")` is `Boolean(true)` with the cursor advanced by
exactly 4 characters (the remaining input is empty). -/
theorem C7_boolean_literal_leniency :
    (∀ (f : Nat) (rest : List Char),
      parseAux (f + 1) .top ('t' :: rest) = .ok (.boolean true) (rest.drop 3)
      ∧ parseAux (f + 1) .top ('f' :: rest) = .ok (.boolean false) (rest.drop 4))
    ∧ parseAux 1 .top "txyz".data = .ok (.boolean true) []
    ∧ parse "txyz" = some (.boolean true) := by
  refine ⟨fun f rest => ⟨?_, ?_⟩, rfl, rfl⟩ <;>
    simp [parseAux, parse_boolean, scalarDispatch]

/-- C8: `equals` on Arrays is equal-length element-wise comparison that
recurses with `equals` on the element pairs, so it is deep; the two parsed
nested literals of the claim compare accordingly. -/
theorem C8_deep_array_equals :
    parseEqCheck "[1,2,[3,4]]" "[1,2,[3,4]]" = true
    ∧ parseEqCheck "[1,2,[3,5]]" "[1,2,[3,4]]" = false
    ∧ (∀ x y : value, ∀ xs ys : valueList,
        value.equals (.array (.vcons x xs)) (.array (.vcons y ys))
          = (value.equals x y && value.equals (.array xs) (.array ys)))
    ∧ (∀ x xs, value.equals (.array .vnil) (.array (.vcons x xs)) = false)
    ∧ (∀ x xs, value.equals (.array (.vcons x xs)) (.array .vnil) = false) := by
  refine ⟨by decide, by decide, fun x y xs ys => ?_, fun x xs => ?_, fun x xs => ?_⟩ <;>
    simp [value.equals, valueList.equalsL]

/-- Counterexample to C3 as stated: the Array `[Nil]` is built from Nil and
Array-of-those, yet it does not round-trip — it serializes to `[nil]`, and
parsing that swallows the `]` inside the character-skipping loop, exhausts
the input and returns the default Nil, which does not `equals` the original
array. -/
theorem C3_roundtrip_fails_on_array_of_nil :
    value.to_string true (.array (.vcons .nil .vnil)) = "[nil]"
    ∧ parse "[nil]" = some .nil
    ∧ roundTripOK (.array (.vcons .nil .vnil)) = false := by
  exact ⟨by decide, rfl, by decide⟩

/-- Counterexample to C4 as stated: on input `"."` the dispatch reaches the
scalar branch and `std::stof` finds no valid conversion, so it throws
`std::invalid_argument`, which propagates out of `parse` — `parse` does
signal an error for this input (modelled by `none`). -/
theorem C4_parse_dot_signals_error :
    parse "." = none ∧ stofModel ".".data = none := by
  exact ⟨rfl, rfl⟩

/-! ### Cursor facts: the parser only ever moves forward -/

theorem parseStringAux_suffix (c : Char) : ∀ l : List Char, (parseStringAux c l).2 <:+ l
  | [] => by simp [parseStringAux]
  | [x] => by
    by_cases hx : x = c <;> simp [parseStringAux, hx]
  | x :: y :: rest2 => by
    by_cases hx : x = c
    · by_cases hy : y = c
      · have h := parseStringAux_suffix c rest2
        simp only [parseStringAux, hx, hy, if_true]
        exact h.trans ((List.suffix_cons c rest2).trans (List.suffix_cons c (c :: rest2)))
      · simp only [parseStringAux, hx, hy, if_true, if_false]
        exact List.suffix_cons c (y :: rest2)
    · have h := parseStringAux_suffix c (y :: rest2)
      simp only [parseStringAux, hx, if_false]
      exact h.trans (List.suffix_cons x (y :: rest2))

theorem parseStringAux_length (c : Char) (l : List Char) :
    (parseStringAux c l).2.length ≤ l.length :=
  (parseStringAux_suffix c l).length_le

theorem parse_string_eq_some (c : Char) (l : List Char) (p : List Char × List Char)
    (h : parse_string c l = some p) : p = parseStringAux c l := by
  cases l with
  | nil => simp [parse_string] at h
  | cons a b =>
    simp only [parse_string, Option.some.injEq] at h
    exact h.symm

theorem stofFrac_pos (r : List Char) (h : (stofFrac r).1 ≠ []) : 1 ≤ (stofFrac r).2.2 := by
  match r with
  | [] => simp [stofFrac] at h
  | c :: rr =>
    by_cases hc : c = '.'
    · subst hc; simp [stofFrac]
    · exfalso
      apply h
      unfold stofFrac
      split
      · next heq =>
        exfalso
        rw [List.cons.injEq] at heq
        exact hc heq.1
      · rfl

theorem stofAfterSign_pos (sg : ℚ) (n0 : Nat) (l1 : List Char) (q : ℚ) (k : Nat)
    (h : stofAfterSign sg n0 l1 = some (q, k)) : 1 ≤ k := by
  simp only [stofAfterSign] at h
  split at h
  · exact absurd h (by simp)
  · next hg =>
    have hk : k = n0 + (l1.takeWhile Char.isDigit).length
        + (stofFrac (l1.dropWhile Char.isDigit)).2.2
        + (stofExp (stofFrac (l1.dropWhile Char.isDigit)).2.1).2 := by
      split at h <;> split at h
      · simp at h
      · rw [Option.some.injEq, Prod.mk.injEq] at h
        exact h.2.symm
      · simp at h
      · rw [Option.some.injEq, Prod.mk.injEq] at h
        exact h.2.symm
    by_cases hd : l1.takeWhile Char.isDigit = []
    · have hf : (stofFrac (l1.dropWhile Char.isDigit)).1 ≠ [] := by
        intro hf; exact hg ⟨hd, hf⟩
      have := stofFrac_pos _ hf
      omega
    · have : 1 ≤ (l1.takeWhile Char.isDigit).length :=
        List.length_pos.mpr hd
      omega

theorem stof_pos (l : List Char) (q : ℚ) (k : Nat) (h : stofModel l = some (q, k)) :
    1 ≤ k := by
  simp only [stofModel] at h
  exact stofAfterSign_pos _ _ _ _ _ h

theorem parseAux_suffix (f : Nat) :
    ∀ (m : PMode) (l : List Char) (v : value) (r : List Char),
    parseAux f m l = .ok v r → r <:+ l := by
  induction f with
  | zero => intro m l v r h; simp [parseAux] at h
  | succ f ih =>
    intro m l v r h
    match m, l with
    | .top, [] =>
      simp only [parseAux, PRes.ok.injEq] at h
      rw [← h.2]
    | .top, c :: rest =>
      by_cases h1 : c = '['
      · subst h1
        simp only [parseAux, if_true] at h
        exact (ih _ _ _ _ h).trans (List.suffix_cons _ _)
      · by_cases h2 : c = '"' ∨ c = '\''
        · simp only [parseAux, h1, h2, if_false, if_true] at h
          cases hps : parse_string c rest with
          | none => rw [hps] at h; exact absurd h (by simp)
          | some p =>
            rw [hps] at h
            simp only [PRes.ok.injEq] at h
            rw [← h.2, parse_string_eq_some c rest p hps]
            exact (parseStringAux_suffix c rest).trans (List.suffix_cons _ _)
        · by_cases h3 : c = 't' ∨ c = 'f'
          · simp only [parseAux, h1, h2, h3, if_false, if_true, PRes.ok.injEq,
              parse_boolean] at h
            by_cases h4 : c = 't' ∨ c = 'T' <;> simp only [h4, if_true, if_false] at h <;>
              rw [← h.2] <;>
              exact (List.drop_suffix _ _).trans (List.suffix_cons _ _)
          · by_cases h4 : scalarDispatch c = true
            · simp only [parseAux, h1, h2, h3, h4, if_false, if_true] at h
              cases hst : stofModel (c :: rest) with
              | none => rw [hst] at h; exact absurd h (by simp)
              | some p =>
                rw [hst] at h
                simp only [PRes.ok.injEq] at h
                rw [← h.2]
                exact List.drop_suffix _ _
            · simp only [parseAux, h1, h2, h3, h4, if_false] at h
              exact (ih _ _ _ _ h).trans (List.suffix_cons _ _)
    | .arr acc, [] =>
      simp only [parseAux, PRes.ok.injEq] at h
      rw [← h.2]
    | .arr acc, c :: rest =>
      by_cases h1 : c = ']'
      · subst h1
        simp only [parseAux, if_true, PRes.ok.injEq] at h
        rw [← h.2]
        exact List.suffix_cons _ _
      · simp only [parseAux, h1, if_false] at h
        cases hin : parseAux f .top (c :: rest) with
        | ok v1 r1 =>
          rw [hin] at h
          by_cases hr1 : r1 = []
          · simp only [hr1, if_true, PRes.ok.injEq] at h
            rw [← h.2]
            exact List.nil_suffix
          · simp only [hr1, if_false] at h
            exact (ih _ _ _ _ h).trans (ih _ _ _ _ hin)
        | err => rw [hin] at h; exact absurd h (by simp)
        | fuelOut => rw [hin] at h; exact absurd h (by simp)

theorem parseAux_consumes (f : Nat) :
    ∀ (m : PMode) (l : List Char) (v : value) (r : List Char),
    parseAux f m l = .ok v r →
    r.length ≤ l.length ∧ (m = .top → l ≠ [] → r.length < l.length) := by
  induction f with
  | zero => intro m l v r h; simp [parseAux] at h
  | succ f ih =>
    intro m l v r h
    match m, l with
    | .top, [] =>
      simp only [parseAux, PRes.ok.injEq] at h
      rw [← h.2]
      exact ⟨Nat.le_refl _, fun _ hne => absurd rfl hne⟩
    | .top, c :: rest =>
      refine ?_
      have hlt : r.length < (c :: rest).length → r.length ≤ (c :: rest).length ∧
          (PMode.top = PMode.top → c :: rest ≠ [] → r.length < (c :: rest).length) :=
        fun hl => ⟨Nat.le_of_lt hl, fun _ _ => hl⟩
      by_cases h1 : c = '['
      · subst h1
        simp only [parseAux, if_true] at h
        have := (ih _ _ _ _ h).1
        apply hlt
        simp only [List.length_cons]
        omega
      · by_cases h2 : c = '"' ∨ c = '\''
        · simp only [parseAux, h1, h2, if_false, if_true] at h
          cases hps : parse_string c rest with
          | none => rw [hps] at h; exact absurd h (by simp)
          | some p =>
            rw [hps] at h
            simp only [PRes.ok.injEq] at h
            apply hlt
            rw [← h.2, parse_string_eq_some c rest p hps]
            have := parseStringAux_length c rest
            simp only [List.length_cons]
            omega
        · by_cases h3 : c = 't' ∨ c = 'f'
          · simp only [parseAux, h1, h2, h3, if_false, if_true, PRes.ok.injEq,
              parse_boolean] at h
            apply hlt
            by_cases h4 : c = 't' ∨ c = 'T' <;> simp only [h4, if_true, if_false] at h <;>
              rw [← h.2] <;> simp only [List.length_drop, List.length_cons] <;> omega
          · by_cases h4 : scalarDispatch c = true
            · simp only [parseAux, h1, h2, h3, h4, if_false, if_true] at h
              cases hst : stofModel (c :: rest) with
              | none => rw [hst] at h; exact absurd h (by simp)
              | some p =>
                rw [hst] at h
                simp only [PRes.ok.injEq] at h
                apply hlt
                rw [← h.2]
                have hk := stof_pos _ _ _ (by rw [hst])
                simp only [List.length_drop, List.length_cons]
                omega
            · simp only [parseAux, h1, h2, h3, h4, if_false] at h
              have := (ih _ _ _ _ h).1
              apply hlt
              simp only [List.length_cons]
              omega
    | .arr acc, [] =>
      simp only [parseAux, PRes.ok.injEq] at h
      rw [← h.2]
      exact ⟨Nat.le_refl _, fun hm => PMode.noConfusion hm⟩
    | .arr acc, c :: rest =>
      refine ⟨?_, fun hm => PMode.noConfusion hm⟩
      by_cases h1 : c = ']'
      · subst h1
        simp only [parseAux, if_true, PRes.ok.injEq] at h
        rw [← h.2]
        simp
      · simp only [parseAux, h1, if_false] at h
        cases hin : parseAux f .top (c :: rest) with
        | ok v1 r1 =>
          rw [hin] at h
          by_cases hr1 : r1 = []
          · simp only [hr1, if_true, PRes.ok.injEq] at h
            rw [← h.2]
            simp
          · simp only [hr1, if_false] at h
            have hstep := (ih _ _ _ _ hin).2 rfl (by simp)
            have := (ih _ _ _ _ h).1
            omega
        | err => rw [hin] at h; exact absurd h (by simp)
        | fuelOut => rw [hin] at h; exact absurd h (by simp)

/-- The fuel of `parseAux` cannot run out when it is at least twice the
remaining input plus two: in `top` mode twice-plus-one suffices, in `arr`
mode twice-plus-two. -/
theorem parseAux_no_fuelOut (f : Nat) :
    (∀ l : List Char, 2 * l.length + 1 ≤ f → parseAux f .top l ≠ .fuelOut)
    ∧ (∀ (acc : valueList) (l : List Char), 2 * l.length + 2 ≤ f →
        parseAux f (.arr acc) l ≠ .fuelOut) := by
  induction f with
  | zero => exact ⟨fun l h => by omega, fun acc l h => by omega⟩
  | succ f ih =>
    constructor
    · intro l hf
      match l with
      | [] => simp [parseAux]
      | c :: rest =>
        by_cases h1 : c = '['
        · subst h1
          simp only [parseAux, if_true]
          refine ih.2 .vnil rest ?_
          simp only [List.length_cons] at hf
          omega
        · by_cases h2 : c = '"' ∨ c = '\''
          · simp only [parseAux, h1, h2, if_false, if_true]
            cases hps : parse_string c rest <;> simp
          · by_cases h3 : c = 't' ∨ c = 'f'
            · simp [parseAux, h1, h2, h3]
            · by_cases h4 : scalarDispatch c = true
              · simp only [parseAux, h1, h2, h3, h4, if_false, if_true]
                cases hst : stofModel (c :: rest) <;> simp
              · simp only [parseAux, h1, h2, h3, h4, if_false]
                refine ih.1 rest ?_
                simp only [List.length_cons] at hf
                omega
    · intro acc l hf
      match l with
      | [] => simp [parseAux]
      | c :: rest =>
        by_cases h1 : c = ']'
        · subst h1; simp [parseAux]
        · simp only [parseAux, h1, if_false]
          cases hin : parseAux f .top (c :: rest) with
          | ok v1 r1 =>
            by_cases hr1 : r1 = []
            · simp [hr1]
            · simp only [hr1, if_false]
              refine ih.2 _ r1 ?_
              have := (parseAux_consumes f .top (c :: rest) v1 r1 hin).2 rfl (by simp)
              simp only [List.length_cons] at hf this
              omega
          | err => simp
          | fuelOut =>
            exfalso
            refine ih.1 (c :: rest) ?_ hin
            simp only [List.length_cons] at hf ⊢
            omega

/-- C9: when the element loop of `parse_array` exhausts the input without
having consumed a closing `]`, the result is the default Nil value and the
accumulated elements are discarded — a partial array is never returned;
concretely, `parse("[1,2")` is `Nil`. -/
theorem C9_unterminated_array_discards_elements :
    (∀ (f : Nat) (acc : valueList) (l : List Char) (v : value) (r : List Char),
      parseAux f (.arr acc) l = .ok v r → v.is_array = true ∨ (v = .nil ∧ r = []))
    ∧ parse "[1,2" = some .nil := by
  constructor
  · intro f
    induction f with
    | zero => intro acc l v r h; simp [parseAux] at h
    | succ f ih =>
      intro acc l v r h
      match l with
      | [] =>
        simp only [parseAux, PRes.ok.injEq] at h
        exact Or.inr ⟨h.1.symm, h.2.symm⟩
      | c :: rest =>
        by_cases h1 : c = ']'
        · subst h1
          simp only [parseAux, if_true, PRes.ok.injEq] at h
          rw [← h.1]
          exact Or.inl rfl
        · simp only [parseAux, h1, if_false] at h
          cases hin : parseAux f .top (c :: rest) with
          | ok v1 r1 =>
            rw [hin] at h
            by_cases hr1 : r1 = []
            · simp only [hr1, if_true, PRes.ok.injEq] at h
              exact Or.inr ⟨h.1.symm, h.2.symm⟩
            · simp only [hr1, if_false] at h
              exact ih _ _ _ _ h
          | err => rw [hin] at h; exact absurd h (by simp)
          | fuelOut => rw [hin] at h; exact absurd h (by simp)
  · rfl

/-- Witness for C9: the loop on `1,2` (the inside of `[1,2`) ends by
exhaustion and its result is covered by the theorem's disjunction. -/
theorem C9_unterminated_array_discards_elements_witness :
    value.is_array .nil = true ∨ (value.nil = .nil ∧ ([] : List Char) = []) :=
  C9_unterminated_array_discards_elements.1 11 .vnil ('1' :: ',' :: '2' :: []) .nil [] rfl

/-! ### Where parse errors can come from -/

/-- The input at the cursor begins with one of the two error sites of the
parser: either a scalar dispatch character whose token `std::stof` rejects
(throwing `std::invalid_argument` when no float prefix exists, or
`std::out_of_range` when it overflows `float`), or a quote that is the last
character of the input (so `parse_string`'s first pass computes
`reserve(len - quotes)` with `len - quotes = -1`, converting to `SIZE_MAX`
and throwing `std::length_error`). -/
def errCauseAt : List Char → Bool
  | c :: rest => (scalarDispatch c && (stofModel (c :: rest)).isNone)
      || ((c == '"' || c == '\'') && rest.isEmpty)
  | [] => false

/-- Some suffix of the input starts at one of the two error sites. -/
def errCauseSomewhere (l : List Char) : Bool :=
  (List.range (l.length + 1)).any fun k => errCauseAt (l.drop k)

theorem drop_len_add (t r : List Char) (k : Nat) :
    (t ++ r).drop (t.length + k) = r.drop k := by
  induction t with
  | nil => simp
  | cons a t ih => simpa [Nat.succ_add] using ih

theorem errCauseSomewhere_of_at (l : List Char) (h : errCauseAt l = true) :
    errCauseSomewhere l = true := by
  unfold errCauseSomewhere
  rw [List.any_eq_true]
  exact ⟨0, by simp, by simpa using h⟩

theorem errCauseSomewhere_suffix (r l : List Char) (hs : r <:+ l)
    (h : errCauseSomewhere r = true) : errCauseSomewhere l = true := by
  obtain ⟨t, rfl⟩ := hs
  unfold errCauseSomewhere at h ⊢
  rw [List.any_eq_true] at h ⊢
  obtain ⟨k, hk, hfail⟩ := h
  rw [List.mem_range] at hk
  refine ⟨t.length + k, ?_, ?_⟩
  · rw [List.mem_range, List.length_append]
    omega
  · rw [drop_len_add]
    exact hfail

theorem parseAux_err_cause (f : Nat) :
    ∀ (m : PMode) (l : List Char), parseAux f m l = .err →
    errCauseSomewhere l = true := by
  induction f with
  | zero => intro m l h; simp [parseAux] at h
  | succ f ih =>
    intro m l h
    match m, l with
    | .top, [] => simp [parseAux] at h
    | .top, c :: rest =>
      by_cases h1 : c = '['
      · subst h1
        simp only [parseAux, if_true] at h
        exact errCauseSomewhere_suffix _ _ (List.suffix_cons _ _) (ih _ _ h)
      · by_cases h2 : c = '"' ∨ c = '\''
        · simp only [parseAux, h1, h2, if_false, if_true] at h
          cases hps : parse_string c rest with
          | some p => rw [hps] at h; exact absurd h (by simp)
          | none =>
            have hrest : rest = [] := by
              cases rest with
              | nil => rfl
              | cons a b => simp [parse_string] at hps
            subst hrest
            apply errCauseSomewhere_of_at
            rcases h2 with rfl | rfl <;> rfl
        · by_cases h3 : c = 't' ∨ c = 'f'
          · simp [parseAux, h1, h2, h3] at h
          · by_cases h4 : scalarDispatch c = true
            · simp only [parseAux, h1, h2, h3, h4, if_false, if_true] at h
              cases hst : stofModel (c :: rest) with
              | some p => rw [hst] at h; exact absurd h (by simp)
              | none =>
                apply errCauseSomewhere_of_at
                simp only [errCauseAt, Bool.or_eq_true, Bool.and_eq_true]
                exact Or.inl ⟨h4, by rw [hst]; rfl⟩
            · simp only [parseAux, h1, h2, h3, h4, if_false] at h
              exact errCauseSomewhere_suffix _ _ (List.suffix_cons _ _) (ih _ _ h)
    | .arr acc, [] => simp [parseAux] at h
    | .arr acc, c :: rest =>
      by_cases h1 : c = ']'
      · subst h1; simp [parseAux] at h
      · simp only [parseAux, h1, if_false] at h
        cases hin : parseAux f .top (c :: rest) with
        | ok v1 r1 =>
          rw [hin] at h
          by_cases hr1 : r1 = []
          · simp [hr1] at h
          · simp only [hr1, if_false] at h
            exact errCauseSomewhere_suffix _ _
              (parseAux_suffix f .top _ _ _ hin) (ih _ _ h)
        | err => exact ih _ _ hin
        | fuelOut => rw [hin] at h; exact absurd h (by simp)

/-- C4 amended: `parse` can signal errors, but only from two sites.
Whenever `parse` throws (modelled as returning `none`), some suffix of the
input starts at one of them: either a scalar dispatch character (digit,
sign or dot) whose token `std::stof` rejects — `invalid_argument` when no
float prefix exists (e.g. `parse "."`), `out_of_range` when the literal
overflows `float` (e.g. `parse "9e999"`) — or a quote that is the last
character of the input, where `parse_string`'s `reserve(len - quotes)`
underflows and throws `length_error` (e.g. `parse "\""`). The skip loop
and array truncation never signal. All three sample inputs do throw. -/
theorem C4_parse_error_sites :
    (∀ s : String, parse s = none → errCauseSomewhere s.data = true)
    ∧ parse "." = none ∧ parse "9e999" = none ∧ parse "\"" = none := by
  refine ⟨?_, rfl, rfl, rfl⟩
  intro s h
  unfold parse at h
  by_cases he : s.data.isEmpty
  · rw [if_pos he] at h
    exact absurd h (by simp)
  · rw [if_neg he] at h
    cases hp : parseAux (2 * s.data.length + 2) .top s.data with
    | ok v r => rw [hp] at h; exact absurd h (by simp)
    | err => exact parseAux_err_cause _ _ _ hp
    | fuelOut =>
      exact absurd hp ((parseAux_no_fuelOut _).1 s.data (by omega))

/-- Witness for C4 amended: `parse "."` and `parse "\""` signal errors and
the theorem locates an error site in each input. -/
theorem C4_parse_error_sites_witness :
    parse "." = none ∧ errCauseSomewhere ".".data = true
    ∧ parse "\"" = none ∧ errCauseSomewhere "\"".data = true :=
  ⟨rfl, C4_parse_error_sites.1 "." rfl, rfl, C4_parse_error_sites.1 "\"" rfl⟩

/-! ### Round-trip machinery: the serialized text parses back -/

theorem digitChar_isDigit (n : Nat) (h : n < 10) : (digitChar n).isDigit = true := by
  interval_cases n <;> decide

theorem natDigitsGo_all (f : Nat) : ∀ n : Nat, (natDigitsGo f n).all Char.isDigit = true := by
  induction f with
  | zero => intro n; rfl
  | succ f ih =>
    intro n
    simp only [natDigitsGo]
    by_cases h : n < 10
    · rw [if_pos h]
      simp [digitChar_isDigit n h]
    · rw [if_neg h]
      simp [List.all_append, ih (n / 10),
        digitChar_isDigit (n % 10) (Nat.mod_lt _ (by norm_num))]

theorem natDigits_all (n : Nat) : (natDigits n).all Char.isDigit = true :=
  natDigitsGo_all _ n

theorem natDigitsGo_ne_nil (f n : Nat) (hf : 1 ≤ f) : natDigitsGo f n ≠ [] := by
  match f, hf with
  | f + 1, _ =>
    simp only [natDigitsGo]
    by_cases h : n < 10
    · simp [h]
    · simp [h]

theorem natDigits_ne_nil (n : Nat) : natDigits n ≠ [] :=
  natDigitsGo_ne_nil _ n (by omega)

theorem stripTrailingZeros_all (l : List Char) (h : l.all Char.isDigit = true) :
    (stripTrailingZeros l).all Char.isDigit = true := by
  rw [List.all_eq_true] at h ⊢
  intro c hc
  apply h
  unfold stripTrailingZeros at hc
  rw [List.mem_reverse] at hc
  have hsub := (List.dropWhile_suffix (l := l.reverse) (fun c => c == '0')).sublist
  rw [← List.mem_reverse]
  exact hsub.subset hc

theorem padSix_all (l : List Char) (h : l.all Char.isDigit = true) :
    (padSix l).all Char.isDigit = true := by
  rw [List.all_eq_true] at h ⊢
  intro c hc
  rw [padSix, List.mem_append] at hc
  rcases hc with hc | hc
  · rw [List.eq_of_mem_replicate hc]
    decide
  · exact h c hc

theorem floatChars_ne_nil (q : ℚ) : floatChars q ≠ [] := by
  simp only [floatChars]
  intro h
  rw [List.append_eq_nil, List.append_eq_nil] at h
  exact natDigits_ne_nil _ h.1.2

theorem floatChars_head (q : ℚ) :
    ∃ c tl, floatChars q = c :: tl ∧ (c = '-' ∨ c.isDigit = true) := by
  cases hl : floatChars q with
  | nil => exact absurd hl (floatChars_ne_nil q)
  | cons c tl =>
    refine ⟨c, tl, rfl, ?_⟩
    by_cases hq : q < 0
    · left
      simp only [floatChars, if_pos hq, List.cons_append, List.nil_append] at hl
      rw [List.cons.injEq] at hl
      exact hl.1.symm
    · right
      obtain ⟨d, dt, hds⟩ := List.exists_cons_of_ne_nil
        (natDigits_ne_nil (ratFloorNonneg |q|))
      simp only [floatChars, if_neg hq, List.nil_append, hds, List.cons_append] at hl
      rw [List.cons.injEq] at hl
      rw [← hl.1]
      have hall := natDigits_all (ratFloorNonneg |q|)
      rw [List.all_eq_true] at hall
      exact hall d (by rw [hds]; exact List.mem_cons_self d dt)

/-- The first character of the input (if any) is not a digit. -/
def headNotDigit : List Char → Bool
  | [] => true
  | c :: _ => !c.isDigit

theorem takeWhile_digits (ds r : List Char) (hds : ds.all Char.isDigit = true)
    (hr : headNotDigit r = true) :
    (ds ++ r).takeWhile Char.isDigit = ds ∧ (ds ++ r).dropWhile Char.isDigit = r := by
  induction ds with
  | nil =>
    cases r with
    | nil => exact ⟨rfl, rfl⟩
    | cons c rs =>
      simp only [headNotDigit, Bool.not_eq_true'] at hr
      simp [List.takeWhile_cons, List.dropWhile_cons, hr]
  | cons d dt ih =>
    rw [List.all_cons, Bool.and_eq_true] at hds
    have h2 := ih hds.2
    simp [List.takeWhile_cons, List.dropWhile_cons, hds.1, h2.1, h2.2]

/-- The remainder cannot extend a float text standing before it: it is
empty, or begins with a character that is not a digit, not a decimal point
and not an exponent letter (`,` and `]`, the characters that follow an
array element, qualify). -/
def extOK : List Char → Bool
  | [] => true
  | c :: _ => !(c.isDigit || c == '.' || c == 'e' || c == 'E')

theorem extOK_headNotDigit (r : List Char) (hr : extOK r = true) :
    headNotDigit r = true := by
  cases r with
  | nil => rfl
  | cons c rs =>
    simp only [extOK, Bool.not_eq_true', Bool.or_eq_false_iff] at hr
    simp only [headNotDigit, Bool.not_eq_true']
    exact hr.1.1.1

theorem stofFrac_no_dot (r : List Char) (hr : extOK r = true) :
    stofFrac r = ([], r, 0) := by
  cases r with
  | nil => rfl
  | cons c rs =>
    have hc : ¬(c = '.') := by
      simp only [extOK, Bool.not_eq_true', Bool.or_eq_false_iff] at hr
      intro h
      rw [h] at hr
      exact absurd hr.1.1.2 (by decide)
    unfold stofFrac
    split
    · next heq =>
      exfalso
      rw [List.cons.injEq] at heq
      exact hc heq.1
    · rfl

theorem stofExp_no_e (r : List Char) (hr : extOK r = true) : stofExp r = (0, 0) := by
  cases r with
  | nil => rfl
  | cons c rs =>
    simp only [extOK, Bool.not_eq_true', Bool.or_eq_false_iff] at hr
    have he : ¬(c = 'e' ∨ c = 'E') := by
      rintro (h | h) <;> rw [h] at hr
      · exact absurd hr.1.2 (by decide)
      · exact absurd hr.2 (by decide)
    simp [stofExp, he]

theorem stofSign_not_sign (c : Char) (X : List Char) (hp : c ≠ '+') (hm : c ≠ '-') :
    stofSign (c :: X) = (1, c :: X, 0) := by
  unfold stofSign
  split
  · next heq =>
    exfalso
    rw [List.cons.injEq] at heq
    exact hp heq.1
  · next heq =>
    exfalso
    rw [List.cons.injEq] at heq
    exact hm heq.1
  · rfl

/-- Appending a non-extending remainder (one that does not begin with a
digit, a dot, or an exponent letter) after a well-shaped float text does
not change what `strtof` reads. -/
theorem stofAfterSign_append (sg : ℚ) (n0 : Nat) (ds1 fds r : List Char)
    (h1 : ds1.all Char.isDigit = true) (h1n : ds1 ≠ [])
    (h2 : fds.all Char.isDigit = true) (hr : extOK r = true) :
    stofAfterSign sg n0 ((ds1 ++ (if fds = [] then [] else '.' :: fds)) ++ r)
      = stofAfterSign sg n0 (ds1 ++ (if fds = [] then [] else '.' :: fds)) := by
  have hnd := extOK_headNotDigit r hr
  by_cases hfds : fds = []
  · rw [if_pos hfds, List.append_nil]
    have ha := takeWhile_digits ds1 r h1 hnd
    have hb := takeWhile_digits ds1 [] h1 rfl
    rw [List.append_nil] at hb
    simp only [stofAfterSign, ha.1, ha.2, hb.1, hb.2,
      stofFrac_no_dot r hr, stofFrac_no_dot [] rfl,
      stofExp_no_e r hr]
    rfl
  · rw [if_neg hfds]
    have hshape : (ds1 ++ '.' :: fds) ++ r = ds1 ++ ('.' :: (fds ++ r)) := by
      simp [List.append_assoc]
    rw [hshape]
    have hdot : headNotDigit ('.' :: (fds ++ r)) = true := rfl
    have hdot2 : headNotDigit ('.' :: fds) = true := rfl
    have ha := takeWhile_digits ds1 ('.' :: (fds ++ r)) h1 hdot
    have hb := takeWhile_digits ds1 ('.' :: fds) h1 hdot2
    have hfa := takeWhile_digits fds r h2 hnd
    have hfb := takeWhile_digits fds [] h2 rfl
    rw [List.append_nil] at hfb
    simp only [stofAfterSign, ha.1, ha.2, hb.1, hb.2, stofFrac,
      hfa.1, hfa.2, hfb.1, hfb.2, stofExp_no_e r hr]
    rfl

theorem stofModel_neg_head (Y : List Char) :
    stofModel ('-' :: Y) = stofAfterSign (-1) 1 Y := rfl

theorem stofModel_digit_head (d : Char) (Y : List Char) (hd : d.isDigit = true) :
    stofModel (d :: Y) = stofAfterSign 1 0 (d :: Y) := by
  have hdp : d ≠ '+' := fun h => by rw [h] at hd; exact absurd hd (by decide)
  have hdm : d ≠ '-' := fun h => by rw [h] at hd; exact absurd hd (by decide)
  simp only [stofModel, stofSign_not_sign d Y hdp hdm]

theorem stofModel_floatChars_append (q : ℚ) (r : List Char) (hr : extOK r = true) :
    stofModel (floatChars q ++ r) = stofModel (floatChars q) := by
  have h1 := natDigits_all (ratFloorNonneg |q|)
  have h1n := natDigits_ne_nil (ratFloorNonneg |q|)
  have h2 : (stripTrailingZeros (padSix (natDigits (ratFloorNonneg
      ((|q| - (ratFloorNonneg |q| : ℚ)) * 1000000))))).all Char.isDigit = true :=
    stripTrailingZeros_all _ (padSix_all _ (natDigits_all _))
  have hfc : floatChars q = (if q < 0 then ['-'] else [])
      ++ (natDigits (ratFloorNonneg |q|)
        ++ (if stripTrailingZeros (padSix (natDigits (ratFloorNonneg
              ((|q| - (ratFloorNonneg |q| : ℚ)) * 1000000)))) = [] then []
            else '.' :: stripTrailingZeros (padSix (natDigits (ratFloorNonneg
              ((|q| - (ratFloorNonneg |q| : ℚ)) * 1000000)))))) := by
    simp [floatChars, List.append_assoc]
  rw [hfc]
  by_cases hq : q < 0
  · rw [if_pos hq, List.singleton_append, List.cons_append,
      stofModel_neg_head, stofModel_neg_head]
    exact stofAfterSign_append _ _ _ _ _ h1 h1n h2 hr
  · rw [if_neg hq, List.nil_append]
    obtain ⟨d, dt, hds⟩ := List.exists_cons_of_ne_nil h1n
    have hd : d.isDigit = true := by
      rw [List.all_eq_true] at h1
      exact h1 d (by rw [hds]; exact List.mem_cons_self d dt)
    have rw1 : ∀ Y : List Char, natDigits (ratFloorNonneg |q|) ++ Y = d :: (dt ++ Y) := by
      intro Y
      rw [hds, List.cons_append]
    rw [List.append_assoc, rw1, stofModel_digit_head d _ hd, ← rw1, ← List.append_assoc]
    rw [rw1, stofModel_digit_head d _ hd, ← rw1]
    exact stofAfterSign_append _ _ _ _ _ h1 h1n h2 hr

/-- What may follow a serialized element inside an array: nothing (top
level), or a comma / closing bracket. -/
def restOK : List Char → Bool
  | [] => true
  | c :: _ => c == ',' || c == ']'

theorem restOK_extOK (r : List Char) (hr : restOK r = true) : extOK r = true := by
  cases r with
  | nil => rfl
  | cons c rs =>
    simp only [restOK, Bool.or_eq_true, beq_iff_eq] at hr
    rcases hr with rfl | rfl <;> rfl

/-- Parsing the quote-escaped serialization of a string, followed by the
closing quote and a non-quote remainder, recovers exactly the original
characters and leaves the remainder. -/
theorem parseStringAux_escape : ∀ (l r : List Char), restOK r = true →
    parseStringAux '"' (escapeChars l ++ '"' :: r) = (l, r)
  | [], r, hr => by
    simp only [escapeChars, List.nil_append]
    cases r with
    | nil => rfl
    | cons c rs =>
      simp only [restOK, Bool.or_eq_true, beq_iff_eq] at hr
      rcases hr with rfl | rfl <;> rfl
  | a :: tl, r, hr => by
    by_cases ha : a = '"'
    · subst ha
      simp only [escapeChars, if_true, eq_self_iff_true, List.cons_append]
      have hrec := parseStringAux_escape tl r hr
      have hstep : ∀ Z : List Char, parseStringAux '"' ('"' :: '"' :: Z)
          = ('"' :: (parseStringAux '"' Z).1, (parseStringAux '"' Z).2) :=
        fun Z => rfl
      rw [hstep, hrec]
    · simp only [escapeChars, if_neg ha, List.cons_append]
      have hrec := parseStringAux_escape tl r hr
      cases hesc : escapeChars tl ++ '"' :: r with
      | nil => exact absurd hesc (by simp)
      | cons y ys =>
        rw [hesc] at hrec
        have hstep : parseStringAux '"' (a :: y :: ys)
            = (a :: (parseStringAux '"' (y :: ys)).1, (parseStringAux '"' (y :: ys)).2) := by
          simp only [parseStringAux, if_neg ha]
        rw [hstep, hrec]

theorem valueList.append_vnil : ∀ l : valueList, l.append .vnil = l
  | .vnil => rfl
  | .vcons x tl => by
    simp only [valueList.append]
    rw [valueList.append_vnil tl]

theorem valueList.push_append : ∀ (acc : valueList) (x : value) (tl : valueList),
    (acc.push x).append tl = acc.append (.vcons x tl)
  | .vnil, x, tl => rfl
  | .vcons y acc2, x, tl => by
    simp only [valueList.push, valueList.append]
    rw [valueList.push_append acc2 x tl]

mutual
theorem value.equals_refl : ∀ v : value, value.equals v v = true
  | .nil => rfl
  | .boolean b => by simp [value.equals]
  | .scalar q => by simp [value.equals]
  | .str s => by simp [value.equals]
  | .array xs => by
    have h := valueList.equalsL_refl xs
    simp only [value.equals]
    exact h
theorem valueList.equalsL_refl : ∀ l : valueList, valueList.equalsL l l = true
  | .vnil => rfl
  | .vcons x tl => by
    simp only [valueList.equalsL, Bool.and_eq_true]
    exact ⟨value.equals_refl x, valueList.equalsL_refl tl⟩
end

/-- The scalar payload's rendered text round-trips through the modelled
float parser: parsing it back consumes all of it and recovers the payload
exactly.  This is the claim's own proviso on Scalar values, made decidable. -/
def stofFullB (q : ℚ) : Bool :=
  match stofModel (floatChars q) with
  | some (p, k) => decide (p = q) && decide (k = (floatChars q).length)
  | none => false

mutual
/-- Values for which the round-trip argument goes through: Nil is excluded
(so it never sits inside an Array), Booleans and Strings are free, Scalars
need their rendering to parse back (the claim's proviso), Arrays recurse. -/
def elemOK : value → Bool
  | .nil => false
  | .boolean _ => true
  | .scalar q => stofFullB q
  | .str _ => true
  | .array l => listOK l
/-- `elemOK` for every element of the list. -/
def listOK : valueList → Bool
  | .vnil => true
  | .vcons x tl => elemOK x && listOK tl
end

/-- The parser at the given fuel either produces exactly this result or
runs out of fuel (which the wrapper's fuel bound later excludes). -/
abbrev okOrOut (f : Nat) (m : PMode) (l : List Char) (v : value) (r : List Char) : Prop :=
  parseAux f m l = .ok v r ∨ parseAux f m l = .fuelOut

theorem arrStepNe (g : Nat) (acc : valueList) (c0 : Char) (tl0 : List Char)
    (hc0 : ¬(c0 = ']')) :
    parseAux (g + 1) (.arr acc) (c0 :: tl0)
      = match parseAux g .top (c0 :: tl0) with
        | .ok v r => if r = [] then .ok .nil [] else parseAux g (.arr (acc.push v)) r
        | e => e := by
  simp only [parseAux]
  rw [if_neg hc0]

theorem arrStepOk (g : Nat) (acc : valueList) (c0 : Char) (tl0 : List Char)
    (hc0 : ¬(c0 = ']')) (x : value) (r : List Char)
    (hin : parseAux g .top (c0 :: tl0) = .ok x r) (hr : r ≠ []) :
    parseAux (g + 1) (.arr acc) (c0 :: tl0) = parseAux g (.arr (acc.push x)) r := by
  rw [arrStepNe g acc c0 tl0 hc0, hin]
  show (if r = [] then PRes.ok .nil [] else parseAux g (.arr (acc.push x)) r)
      = parseAux g (.arr (acc.push x)) r
  rw [if_neg hr]

theorem arrStepOut (g : Nat) (acc : valueList) (c0 : Char) (tl0 : List Char)
    (hc0 : ¬(c0 = ']')) (hin : parseAux g .top (c0 :: tl0) = .fuelOut) :
    parseAux (g + 1) (.arr acc) (c0 :: tl0) = .fuelOut := by
  rw [arrStepNe g acc c0 tl0 hc0, hin]

theorem parseAux_scalar_step (g : Nat) (c : Char) (X : List Char)
    (hc : c = '-' ∨ c.isDigit = true) :
    parseAux (g + 1) .top (c :: X)
      = match stofModel (c :: X) with
        | none => .err
        | some (q, k) => .ok (.scalar q) ((c :: X).drop k) := by
  have h1 : ¬(c = '[') := by
    rcases hc with rfl | hd
    · decide
    · intro hcc; rw [hcc] at hd; exact absurd hd (by decide)
  have h2 : ¬(c = '"' ∨ c = '\'') := by
    rcases hc with rfl | hd
    · decide
    · rintro (hcc | hcc) <;> rw [hcc] at hd <;> exact absurd hd (by decide)
  have h3 : ¬(c = 't' ∨ c = 'f') := by
    rcases hc with rfl | hd
    · decide
    · rintro (hcc | hcc) <;> rw [hcc] at hd <;> exact absurd hd (by decide)
  have h4 : scalarDispatch c = true := by
    rcases hc with rfl | hd
    · decide
    · simp [scalarDispatch, hd]
  simp only [parseAux]
  rw [if_neg h1, if_neg h2, if_neg h3, if_pos h4]

/-- Every serializable element (no Nil) begins with a character other than
`]` (so the array loop hands it to `parse_`). -/
theorem toChars_head : ∀ v : value, elemOK v = true →
    ∃ c tl, value.toChars true v = c :: tl ∧ ¬(c = ']')
  | .nil, h => absurd h (by decide)
  | .boolean true, _ => ⟨'t', _, rfl, by decide⟩
  | .boolean false, _ => ⟨'f', _, rfl, by decide⟩
  | .scalar q, _ => by
    obtain ⟨c, tl, hfc, hc⟩ := floatChars_head q
    refine ⟨c, tl, ?_, ?_⟩
    · simpa [value.toChars] using hfc
    · rcases hc with rfl | hd
      · decide
      · intro hcc; rw [hcc] at hd; exact absurd hd (by decide)
  | .str s, _ => ⟨'"', _, rfl, by decide⟩
  | .array l, _ => ⟨'[', _, rfl, by decide⟩

theorem toCharsL_true_rest (tl : valueList) (rest : List Char) :
    restOK (valueList.toCharsL true true tl ++ ']' :: rest) = true := by
  cases tl with
  | vnil => rfl
  | vcons x t => rfl

theorem toCharsL_append_ne_nil (tl : valueList) (rest : List Char) :
    valueList.toCharsL true true tl ++ ']' :: rest ≠ [] := by
  simp

mutual
/-- Parsing the serialization of a Nil-free value followed by a benign
remainder (empty or starting with `,` or `]`) recovers the value and leaves
the remainder, for any fuel large enough not to run out. -/
theorem roundtripElem : ∀ (v : value), elemOK v = true → ∀ (rest : List Char),
    restOK rest = true → ∀ (f : Nat),
    okOrOut f .top (value.toChars true v ++ rest) v rest
  | .nil, h, _, _, _ => absurd h (by decide)
  | .boolean true, _, rest, _, 0 => Or.inr rfl
  | .boolean true, _, rest, _, (_ + 1) => Or.inl rfl
  | .boolean false, _, rest, _, 0 => Or.inr rfl
  | .boolean false, _, rest, _, (_ + 1) => Or.inl rfl
  | .str s, _, rest, hrest, 0 => Or.inr rfl
  | .str s, _, rest, hrest, (g + 1) => by
    left
    have hesc := parseStringAux_escape s.data rest hrest
    have hshape : value.toChars true (.str s) ++ rest
        = '"' :: (escapeChars s.data ++ '"' :: rest) := by
      simp [value.toChars]
    cases hY : escapeChars s.data ++ '"' :: rest with
    | nil => exact absurd hY (by simp)
    | cons y ys =>
      have hstep : parseAux (g + 1) .top ('"' :: y :: ys)
          = .ok (.str (String.mk (parseStringAux '"' (y :: ys)).1))
              (parseStringAux '"' (y :: ys)).2 := rfl
      rw [hshape, hY, hstep, ← hY, hesc]
  | .scalar q, h, rest, hrest, 0 => Or.inr rfl
  | .scalar q, h, rest, hrest, (g + 1) => by
    left
    have hs : stofFullB q = true := by simpa [elemOK] using h
    cases hst : stofModel (floatChars q) with
    | none => simp [stofFullB, hst] at hs
    | some p =>
      obtain ⟨pq, pk⟩ := p
      have hs2 : pq = q ∧ pk = (floatChars q).length := by
        simpa [stofFullB, hst, Bool.and_eq_true, decide_eq_true_eq] using hs
      obtain ⟨c, tl, hfc, hc⟩ := floatChars_head q
      have hext : stofModel (floatChars q ++ rest) = some (q, (floatChars q).length) := by
        rw [stofModel_floatChars_append q rest (restOK_extOK rest hrest), hst,
          hs2.1, hs2.2]
      have hshape : value.toChars true (.scalar q) ++ rest = c :: (tl ++ rest) := by
        simp [value.toChars, hfc]
      rw [hshape, parseAux_scalar_step g c (tl ++ rest) hc]
      rw [show c :: (tl ++ rest) = floatChars q ++ rest by rw [hfc, List.cons_append]]
      rw [hext]
      show PRes.ok (.scalar q) ((floatChars q ++ rest).drop (floatChars q).length)
          = PRes.ok (.scalar q) rest
      rw [List.drop_left]
  | .array .vnil, _, rest, hrest, 0 => Or.inr rfl
  | .array .vnil, _, rest, hrest, 1 => Or.inr rfl
  | .array .vnil, _, rest, hrest, (_ + 2) => Or.inl rfl
  | .array (.vcons x tl), h, rest, hrest, 0 => Or.inr rfl
  | .array (.vcons x tl), h, rest, hrest, (g + 1) => by
    have hx : elemOK x = true ∧ listOK tl = true := by
      simpa [elemOK, listOK, Bool.and_eq_true] using h
    have hshape : value.toChars true (.array (.vcons x tl)) ++ rest
        = '[' :: (value.toChars true x
            ++ (valueList.toCharsL true true tl ++ ']' :: rest)) := by
      simp [value.toChars, valueList.toCharsL]
    have hstep : ∀ Y : List Char, parseAux (g + 1) .top ('[' :: Y)
        = parseAux g (.arr .vnil) Y := fun Y => rfl
    unfold okOrOut
    rw [hshape, hstep]
    cases g with
    | zero => exact Or.inr rfl
    | succ g2 =>
      obtain ⟨c0, tl0, hX, hc0⟩ := toChars_head x hx.1
      have helem := roundtripElem x hx.1 (valueList.toCharsL true true tl ++ ']' :: rest)
        (toCharsL_true_rest tl rest) g2
      have hcons : value.toChars true x ++ (valueList.toCharsL true true tl ++ ']' :: rest)
          = c0 :: (tl0 ++ (valueList.toCharsL true true tl ++ ']' :: rest)) := by
        rw [hX, List.cons_append]
      rcases helem with hok | hout
      · have hin2 : parseAux g2 .top
            (c0 :: (tl0 ++ (valueList.toCharsL true true tl ++ ']' :: rest)))
            = .ok x (valueList.toCharsL true true tl ++ ']' :: rest) := by
          rw [← hcons]; exact hok
        have hstep2 := arrStepOk g2 .vnil c0 _ hc0 x _ hin2
          (toCharsL_append_ne_nil tl rest)
        rw [hcons, hstep2]
        have hloop := roundtripLoop tl hx.2 (valueList.vnil.push x) rest hrest g2
        rcases hloop with h5 | h5
        · exact Or.inl h5
        · exact Or.inr h5
      · have hin2 : parseAux g2 .top
            (c0 :: (tl0 ++ (valueList.toCharsL true true tl ++ ']' :: rest)))
            = .fuelOut := by
          rw [← hcons]; exact hout
        rw [hcons, arrStepOut g2 .vnil c0 _ hc0 hin2]
        exact Or.inr rfl
/-- The element loop of the array parser, run over the tail serialization
(each element preceded by its comma) followed by the closing bracket,
appends the elements to the accumulator and closes the array. -/
theorem roundtripLoop : ∀ (l : valueList), listOK l = true →
    ∀ (acc : valueList) (rest : List Char), restOK rest = true → ∀ (f : Nat),
    okOrOut f (.arr acc) (valueList.toCharsL true true l ++ ']' :: rest)
      (.array (acc.append l)) rest
  | .vnil, _, acc, rest, hrest, 0 => Or.inr rfl
  | .vnil, _, acc, rest, hrest, (g + 1) => by
    left
    show parseAux (g + 1) (.arr acc) (']' :: rest) = .ok (.array (acc.append .vnil)) rest
    rw [valueList.append_vnil]
    rfl
  | .vcons x tl, h, acc, rest, hrest, 0 => Or.inr rfl
  | .vcons x tl, h, acc, rest, hrest, (g + 1) => by
    have hx : elemOK x = true ∧ listOK tl = true := by
      simpa [listOK, Bool.and_eq_true] using h
    have hshape : valueList.toCharsL true true (.vcons x tl) ++ ']' :: rest
        = ',' :: (value.toChars true x
            ++ (valueList.toCharsL true true tl ++ ']' :: rest)) := by
      simp [valueList.toCharsL]
    unfold okOrOut
    rw [hshape]
    cases g with
    | zero => exact Or.inr rfl
    | succ g2 =>
      have hskip : ∀ Y : List Char, parseAux (g2 + 1) .top (',' :: Y)
          = parseAux g2 .top Y := fun Y => rfl
      have helem := roundtripElem x hx.1 (valueList.toCharsL true true tl ++ ']' :: rest)
        (toCharsL_true_rest tl rest) g2
      rcases helem with hok | hout
      · have hin2 : parseAux (g2 + 1) .top
            (',' :: (value.toChars true x
              ++ (valueList.toCharsL true true tl ++ ']' :: rest)))
            = .ok x (valueList.toCharsL true true tl ++ ']' :: rest) := by
          rw [hskip]; exact hok
        have hstep2 := arrStepOk (g2 + 1) acc ',' _ (by decide) x _ hin2
          (toCharsL_append_ne_nil tl rest)
        rw [hstep2]
        have hloop := roundtripLoop tl hx.2 (acc.push x) rest hrest (g2 + 1)
        rcases hloop with h5 | h5
        · left
          rw [valueList.push_append] at h5
          exact h5
        · right
          exact h5
      · have hin2 : parseAux (g2 + 1) .top
            (',' :: (value.toChars true x
              ++ (valueList.toCharsL true true tl ++ ']' :: rest)))
            = .fuelOut := by
          rw [hskip]; exact hout
        rw [arrStepOut (g2 + 1) acc ',' _ (by decide) hin2]
        exact Or.inr rfl
end

/-- C3 amended: the round-trip `parse(to_string(v, escape=true)).equals(v)`
holds for every value built from Nil, Boolean, String and Array of those in
which Nil never occurs as an array element (and for Scalar payloads whose
rendering parses back, per `stofFullB`). -/
theorem C3_roundtrip_on_nil_free_values :
    ∀ v : value, (v = value.nil ∨ elemOK v = true) → roundTripOK v = true := by
  intro v hv
  rcases hv with rfl | h
  · rfl
  · unfold roundTripOK
    obtain ⟨c0, tl0, hX, _⟩ := toChars_head v h
    have hdata : (value.to_string true v).data = value.toChars true v := rfl
    unfold parse
    rw [hdata, hX]
    rw [if_neg (by simp)]
    have hmain := roundtripElem v h [] rfl (2 * (c0 :: tl0).length + 2)
    rw [List.append_nil, hX] at hmain
    rcases hmain with hok | hout
    · rw [hok]
      show value.equals v v = true
      exact value.equals_refl v
    · exact absurd hout ((parseAux_no_fuelOut _).1 (c0 :: tl0) (by omega))

/-- Witness for C3 amended: a Nil-free array of a Boolean, a String and the
Scalar 5 (whose rendering `5` parses back to 5) round-trips. -/
theorem C3_roundtrip_on_nil_free_values_witness :
    (value.array (.vcons (.boolean true) (.vcons (.str "a") (.vcons (.scalar 5) .vnil)))
        = value.nil
      ∨ elemOK (.array (.vcons (.boolean true)
          (.vcons (.str "a") (.vcons (.scalar 5) .vnil)))) = true)
    ∧ roundTripOK (.array (.vcons (.boolean true)
        (.vcons (.str "a") (.vcons (.scalar 5) .vnil)))) = true :=
  ⟨Or.inr (by decide), C3_roundtrip_on_nil_free_values _ (Or.inr (by decide))⟩

end sqf
